import Mathlib

/-!
Shallow embedding of the BitSplit grid-trading strategy
(`src/strategy.py`, class `BitSplitStrategy`).

Modelling conventions:
* Python floats are modelled as rationals `ℚ`.
* The exchange manager (price feed and order executor) is modelled as an
  explicit environment `Env` handed to `run_step`; per-split order outcomes
  are indexed by the split id.
* `datetime.now()` timestamps are an explicit `String` field of `Env`
  (respectively an explicit argument of `configure`).
* Python's `ZeroDivisionError` in `execute_buy`'s
  `qty = self.investment_per_slot / price` is modelled by `Except Unit`:
  `Except.error ()` is the raised exception, everything else is `Except.ok`.
* f-string number formatting (`:,.0f`) is approximated by `toString` of the
  rational; no claim depends on the digit rendering.
-/

/-- One grid split: the dictionary appended in `BitSplitStrategy.configure`
(fields `id`, `status`, `buy_target`, `buy_price`, `quantity`,
`sell_target`, `profit_rate`). -/
structure Split where
  id : Nat
  status : String
  buy_target : ℚ
  buy_price : ℚ
  quantity : ℚ
  sell_target : ℚ
  profit_rate : ℚ
deriving Repr, DecidableEq

/-- The mutable state of `BitSplitStrategy` (`__init__`), minus the
exchange-manager reference which is modelled as the environment. -/
structure BitSplitStrategy where
  active : Bool
  splits : List Split
  logs : List String
  dry_run : Bool
  symbol : String
  total_slots : Int
  investment_per_slot : ℚ
  start_price : ℚ
  gap_percent : ℚ
  target_return : ℚ
deriving Repr, DecidableEq

/-- The state built by `BitSplitStrategy.__init__`. -/
def initStrategy : BitSplitStrategy :=
  { active := false, splits := [], logs := [], dry_run := true, symbol := "",
    total_slots := 10, investment_per_slot := 0, start_price := 0,
    gap_percent := 1/100, target_return := 1/100 }

/-- A log line: Python's `f"[{timestamp}] {message}"`. -/
def mkEntry (ts msg : String) : String := "[" ++ ts ++ "] " ++ msg

/-- `BitSplitStrategy.log`: prepend the timestamped entry, then truncate to
the first 100 entries when the length exceeds 100. -/
def BitSplitStrategy.log (st : BitSplitStrategy) (ts msg : String) : BitSplitStrategy :=
  let logs := mkEntry ts msg :: st.logs
  { st with logs := if logs.length > 100 then logs.take 100 else logs }

/-- The buy-target recurrence of the `configure` loop: split 0 gets
`start_price`, split `i+1` gets the previous split's target times
`(1 - gap_percent)`. -/
def buyTarget (s g : ℚ) : Nat → ℚ
  | 0 => s
  | i + 1 => buyTarget s g i * (1 - g)

/-- The split dictionary appended for loop index `i` in `configure`. -/
def mkSplit (s g : ℚ) (i : Nat) : Split :=
  { id := i + 1, status := "READY", buy_target := buyTarget s g i,
    buy_price := 0, quantity := 0, sell_target := 0, profit_rate := 0 }

/-- `BitSplitStrategy.configure`: store the parameters, rebuild the split
list from scratch (`range(self.total_slots)`, empty when the count is
non-positive), log, and set `active = True`.  The Python code performs no
validation of any argument. -/
def configure (st : BitSplitStrategy) (ts symbol : String) (total_slots : Int)
    (investment_per_slot start_price gap_percent target_return : ℚ)
    (dry_run : Bool) : BitSplitStrategy :=
  let st1 : BitSplitStrategy :=
    { st with
      symbol := symbol
      total_slots := total_slots
      investment_per_slot := investment_per_slot
      start_price := start_price
      gap_percent := gap_percent
      target_return := target_return
      dry_run := dry_run
      splits := (List.range total_slots.toNat).map (mkSplit start_price gap_percent) }
  let st2 := st1.log ts ("Strategy Configured: " ++ symbol ++ ", "
      ++ toString total_slots ++ " splits, Dry Run=" ++ toString dry_run)
  { st2 with active := true }

/-- Result dictionary of a live buy order; `price`/`amount` may be absent
(Python's `result.get(key, default)`). -/
structure OrderResult where
  price : Option ℚ
  amount : Option ℚ
deriving Repr, DecidableEq

/-- Outcome of `create_market_buy_order`: `(True, order)` or `(False, err)`. -/
inductive BuyOutcome where
  | ok (res : OrderResult)
  | fail (err : String)
deriving Repr, DecidableEq

/-- Outcome of `create_market_sell_order`. -/
inductive SellOutcome where
  | ok
  | fail (err : String)
deriving Repr, DecidableEq

/-- One step's view of the exchange manager: current timestamp, the price
returned by `fetch_current_price` (`none` = Python `None`), and the order
outcomes per split id. -/
structure Env where
  ts : String
  current_price : Option ℚ
  buy_order : Nat → BuyOutcome
  sell_order : Nat → SellOutcome

/-- Log text of a successful dry-run buy. -/
def dryBuyMsg (i : Nat) (price sellTarget : ℚ) : String :=
  "[DRY RUN] BOUGHT Split " ++ toString i ++ " @ " ++ toString price
    ++ " (Target Sell: " ++ toString sellTarget ++ ")"

/-- Log text of a successful live buy. -/
def liveBuyMsg (i : Nat) (price : ℚ) : String :=
  "[LIVE] BOUGHT Split " ++ toString i ++ " @ " ++ toString price

/-- Log text of a failed live buy. -/
def buyFailMsg (i : Nat) (err : String) : String :=
  "[LIVE] BUY FAILED Split " ++ toString i ++ ": " ++ err

/-- Log text of a successful dry-run sell. -/
def drySellMsg (i : Nat) (price profit : ℚ) : String :=
  "[DRY RUN] SOLD Split " ++ toString i ++ " @ " ++ toString price
    ++ " (Profit: " ++ toString profit ++ ")"

/-- Log text of a successful live sell. -/
def liveSellMsg (i : Nat) (price : ℚ) : String :=
  "[LIVE] SOLD Split " ++ toString i ++ " @ " ++ toString price

/-- Log text of a failed live sell. -/
def sellFailMsg (i : Nat) (err : String) : String :=
  "[LIVE] SELL FAILED Split " ++ toString i ++ ": " ++ err

/-- `BitSplitStrategy.execute_buy`.  The quantity `investment_per_slot /
price` is computed before the dry-run branch, so `price == 0` raises
(`Except.error ()`) in both modes.  Dry run records the observed price;
live mode prefers the executor-reported price/amount and falls back to the
observed price and estimated quantity; a failed live order leaves the split
untouched and only logs. -/
def execute_buy (env : Env) (st : BitSplitStrategy) (split : Split) (price : ℚ) :
    Except Unit (BitSplitStrategy × Split) :=
  if price = 0 then Except.error () else
  let qty := st.investment_per_slot / price
  if st.dry_run then
    let split2 : Split :=
      { split with
        status := "BOUGHT"
        buy_price := price
        quantity := qty
        sell_target := price * (1 + st.target_return) }
    Except.ok (st.log env.ts (dryBuyMsg split.id price split2.sell_target), split2)
  else
    match env.buy_order split.id with
    | BuyOutcome.ok res =>
        let bp := res.price.getD price
        let split2 : Split :=
          { split with
            status := "BOUGHT"
            buy_price := bp
            quantity := res.amount.getD qty
            sell_target := bp * (1 + st.target_return) }
        Except.ok (st.log env.ts (liveBuyMsg split.id price), split2)
    | BuyOutcome.fail err =>
        Except.ok (st.log env.ts (buyFailMsg split.id err), split)

/-- `BitSplitStrategy.execute_sell`.  Dry run and a successful live order
reset the split to READY with all position fields zeroed; a failed live
order leaves the split untouched and only logs. -/
def execute_sell (env : Env) (st : BitSplitStrategy) (split : Split) (price : ℚ) :
    BitSplitStrategy × Split :=
  if st.dry_run then
    let profit := (price - split.buy_price) * split.quantity
    (st.log env.ts (drySellMsg split.id price profit),
     { split with
       status := "READY"
       buy_price := 0
       quantity := 0
       sell_target := 0
       profit_rate := 0 })
  else
    match env.sell_order split.id with
    | SellOutcome.ok =>
        (st.log env.ts (liveSellMsg split.id price),
         { split with
           status := "READY"
           buy_price := 0
           quantity := 0
           sell_target := 0
           profit_rate := 0 })
    | SellOutcome.fail err => (st.log env.ts (sellFailMsg split.id err), split)

/-- The body of the `for split in self.splits` loop in `run_step`: READY
splits buy when the price is at or below the buy target; BOUGHT splits
first refresh `profit_rate` (when `buy_price > 0`) and sell when the price
is at or above the sell target; anything else is left alone. -/
def step_split (env : Env) (p : ℚ) (st : BitSplitStrategy) (split : Split) :
    Except Unit (BitSplitStrategy × Split) :=
  if split.status = "READY" then
    if p ≤ split.buy_target then execute_buy env st split p
    else Except.ok (st, split)
  else if split.status = "BOUGHT" then
    let split1 :=
      if split.buy_price > 0 then
        { split with profit_rate := (p - split.buy_price) / split.buy_price * 100 }
      else split
    if p ≥ split1.sell_target then Except.ok (execute_sell env st split1 p)
    else Except.ok (st, split1)
  else Except.ok (st, split)

/-- Left-to-right traversal of the split list, threading the log-carrying
state exactly as the in-place mutation of the Python loop does. -/
def run_splits (env : Env) (p : ℚ) (st : BitSplitStrategy) :
    List Split → Except Unit (BitSplitStrategy × List Split)
  | [] => Except.ok (st, [])
  | s :: rest =>
      match step_split env p st s with
      | Except.error e => Except.error e
      | Except.ok (st1, s1) =>
          match run_splits env p st1 rest with
          | Except.error e => Except.error e
          | Except.ok (st2, rest1) => Except.ok (st2, s1 :: rest1)

/-- The three possible returns of `run_step`: Python `None` when inactive,
the string `"Failed to fetch price"`, or the fetched price. -/
inductive RunResult where
  | inactive
  | noPrice
  | price (p : ℚ)
deriving Repr, DecidableEq

/-- `BitSplitStrategy.run_step`: bail out when inactive; fetch the price
and return the no-price indicator without touching anything when it is
`None`; otherwise evaluate every split in list order and return the
price. -/
def run_step (env : Env) (st : BitSplitStrategy) :
    Except Unit (BitSplitStrategy × RunResult) :=
  if st.active = false then Except.ok (st, RunResult.inactive)
  else
    match env.current_price with
    | none => Except.ok (st, RunResult.noPrice)
    | some p =>
        match run_splits env p st st.splits with
        | Except.error e => Except.error e
        | Except.ok (st1, splits1) =>
            Except.ok ({ st1 with splits := splits1 }, RunResult.price p)

/-- Observer: the strategy state after one `run_step` (unchanged when the
step raised). -/
def stepState (env : Env) (st : BitSplitStrategy) : BitSplitStrategy :=
  match run_step env st with
  | Except.ok (st2, _) => st2
  | Except.error _ => st

/-- Observer: the value returned by one `run_step` (`none` when it raised). -/
def stepOutcome (env : Env) (st : BitSplitStrategy) : Option RunResult :=
  match run_step env st with
  | Except.ok (_, r) => some r
  | Except.error _ => none

/-- Observer: the position-relevant fields of a split. -/
def splitView (s : Split) : String × ℚ × ℚ × ℚ :=
  (s.status, s.buy_price, s.quantity, s.sell_target)

/-- Observer: `splitView` of every split of a state. -/
def splitsView (st : BitSplitStrategy) : List (String × ℚ × ℚ × ℚ) :=
  st.splits.map splitView

/-- Repeated application of `BitSplitStrategy.log`: a sequence of
(timestamp, message) appends. -/
def applyLogs (st : BitSplitStrategy) : List (String × String) → BitSplitStrategy
  | [] => st
  | e :: rest => applyLogs (st.log e.1 e.2) rest

/-- The per-slot READY/BOUGHT invariant of the spec: either READY with all
position fields zero, or BOUGHT with all of them strictly positive. -/
def slotOK (s : Split) : Prop :=
  (s.status = "READY" ∧ s.buy_price = 0 ∧ s.quantity = 0 ∧ s.sell_target = 0)
  ∨ (s.status = "BOUGHT" ∧ 0 < s.buy_price ∧ 0 < s.quantity ∧ 0 < s.sell_target)

/-- A well-behaved order executor: whenever a live buy succeeds, any
reported price and amount are strictly positive. -/
def envOK (env : Env) : Prop :=
  ∀ i res, env.buy_order i = BuyOutcome.ok res →
    (∀ q, res.price = some q → 0 < q) ∧ (∀ q, res.amount = some q → 0 < q)

/-- The sell-target invariant: a BOUGHT split's sell target is its buy
price marked up by the target return. -/
def sellTargetOK (tr : ℚ) (s : Split) : Prop :=
  s.status = "BOUGHT" → s.sell_target = s.buy_price * (1 + tr)

/-! Concrete fixtures used by witnesses and counterexamples. -/

/-- A one-slot dry-run configuration: start 100, gap 10%, target 5%,
1000 per slot. -/
def stW : BitSplitStrategy :=
  configure initStrategy ("t") ("B") 1 1000 100 (1/10) (1/20) true

/-- The same configuration in live mode. -/
def stLive : BitSplitStrategy :=
  configure initStrategy ("t") ("B") 1 1000 100 (1/10) (1/20) false

/-- A one-slot dry-run configuration with `investment_per_slot = 0`. -/
def stZeroInv : BitSplitStrategy :=
  configure initStrategy ("t") ("B") 1 0 10 (1/2) (1/20) true

/-- Environment: price 90, every live order fails. -/
def envFail90 : Env :=
  { ts := "u", current_price := some 90,
    buy_order := fun _ => BuyOutcome.fail ("nope"),
    sell_order := fun _ => SellOutcome.fail ("nope") }

/-- Environment: the price feed returns no price. -/
def envNoPrice : Env :=
  { ts := "u", current_price := none,
    buy_order := fun _ => BuyOutcome.fail ("nope"),
    sell_order := fun _ => SellOutcome.fail ("nope") }

/-- Environment: the price feed returns the price 0. -/
def envZero : Env :=
  { ts := "u", current_price := some 0,
    buy_order := fun _ => BuyOutcome.fail ("nope"),
    sell_order := fun _ => SellOutcome.fail ("nope") }

/-- Environment: price 10, every live order fails. -/
def envTen : Env :=
  { ts := "u", current_price := some 10,
    buy_order := fun _ => BuyOutcome.fail ("nope"),
    sell_order := fun _ => SellOutcome.fail ("nope") }

/-- The single READY split of `stW` and `stLive`. -/
def splitW : Split := mkSplit 100 (1/10) 0

/-! ## Generic facts about `configure` and `buyTarget` -/

/-- The split list built by `configure` is the mapped range, whatever the
prior state. -/
theorem configure_splits (st : BitSplitStrategy) (ts sym : String) (n : Int)
    (inv s g tr : ℚ) (dr : Bool) :
    (configure st ts sym n inv s g tr dr).splits
      = (List.range n.toNat).map (mkSplit s g) := rfl

/-- Indexing the split list built by `configure`. -/
theorem configure_splits_getElem (st : BitSplitStrategy) (ts sym : String) (n : Int)
    (inv s g tr : ℚ) (dr : Bool) (i : Nat) (a : Split)
    (ha : (configure st ts sym n inv s g tr dr).splits[i]? = some a) :
    a = mkSplit s g i ∧ i < n.toNat := by
  rw [configure_splits] at ha
  rcases List.getElem?_eq_some.1 ha with ⟨h, hv⟩
  rw [List.length_map, List.length_range] at h
  refine ⟨?_, h⟩
  rw [List.getElem?_map, List.getElem?_range h] at ha
  simpa using ha.symm

/-- Closed form of the buy-target recurrence. -/
theorem buyTarget_closed (s g : ℚ) (i : Nat) : buyTarget s g i = s * (1 - g) ^ i := by
  induction i with
  | zero => simp [buyTarget]
  | succ i ih => rw [buyTarget, ih, pow_succ, mul_assoc]

/-- Buy targets stay positive when the start price is positive and the gap
fraction is below one. -/
theorem buyTarget_pos (s g : ℚ) (i : Nat) (hs : 0 < s) (hg1 : g < 1) :
    0 < buyTarget s g i := by
  rw [buyTarget_closed]
  have h1 : (0:ℚ) < 1 - g := by linarith
  positivity

/-! ## C1: grid of buy targets -/

/-- C1 (amended): for every configuration with `0 < g < 1` AND a strictly
positive start price `s`, the buy targets built by `configure` satisfy
`target[0] = s`, the geometric recurrence `target[i+1] = target[i]*(1-g)`,
the closed form `target[i] = s*(1-g)^i`, and are strictly decreasing.  The
positivity of `s` is needed for the strict decrease (see the
counterexample). -/
theorem configure_buy_targets (st : BitSplitStrategy) (ts sym : String) (n : Int)
    (inv s g tr : ℚ) (dr : Bool) (i : Nat) (a : Split)
    (hg0 : 0 < g) (hg1 : g < 1) (hs : 0 < s)
    (ha : (configure st ts sym n inv s g tr dr).splits[i]? = some a) :
    a.buy_target = s * (1 - g) ^ i
    ∧ (i = 0 → a.buy_target = s)
    ∧ ∀ b, (configure st ts sym n inv s g tr dr).splits[i + 1]? = some b →
        b.buy_target = a.buy_target * (1 - g) ∧ b.buy_target < a.buy_target := by
  obtain ⟨rfl, hi⟩ := configure_splits_getElem st ts sym n inv s g tr dr i a ha
  refine ⟨by simp [mkSplit, buyTarget_closed], ?_, ?_⟩
  · rintro rfl; simp [mkSplit, buyTarget]
  · intro b hb
    obtain ⟨rfl, _⟩ := configure_splits_getElem st ts sym n inv s g tr dr (i + 1) b hb
    constructor
    · simp [mkSplit, buyTarget]
    · show buyTarget s g (i + 1) < buyTarget s g i
      rw [buyTarget]
      exact mul_lt_of_lt_one_right (buyTarget_pos s g i hs hg1) (by linarith)

/-- Witness for C1 at the spec scenario `startPrice=100`, `N=3`, `g=0.1`
(targets 100, 90, 81). -/
theorem configure_buy_targets_witness :
    (configure initStrategy ("t") ("B") 3 1000 100 (1/10) (1/20) true).splits[1]?
        = some (mkSplit 100 (1/10) 1)
    ∧ ((mkSplit 100 (1/10) 1).buy_target = 100 * (1 - 1/10) ^ 1
      ∧ ((1:Nat) = 0 → (mkSplit 100 (1/10) 1).buy_target = 100)
      ∧ ∀ b, (configure initStrategy ("t") ("B") 3 1000 100 (1/10) (1/20) true).splits[1 + 1]?
            = some b →
          b.buy_target = (mkSplit 100 (1/10) 1).buy_target * (1 - 1/10)
          ∧ b.buy_target < (mkSplit 100 (1/10) 1).buy_target) := by
  have h1 : (configure initStrategy ("t") ("B") 3 1000 100 (1/10) (1/20) true).splits[1]?
      = some (mkSplit 100 (1/10) 1) := by
    rw [configure_splits]
    simp [List.range_succ]
  exact ⟨h1, configure_buy_targets initStrategy ("t") ("B") 3 1000 100 (1/10) (1/20) true 1
    (mkSplit 100 (1/10) 1) (by norm_num) (by norm_num) (by norm_num) h1⟩

/-- C1 counterexample: the claim as stated (strict decrease assuming only
`0 < g < 1`) is false: with `startPrice = 0` every target is `0`, so the
sequence is not strictly decreasing. -/
theorem configure_buy_targets_cex :
    ¬ ∀ (st : BitSplitStrategy) (ts sym : String) (n : Int) (inv s g tr : ℚ) (dr : Bool)
        (i : Nat) (a b : Split),
        0 < g → g < 1 →
        (configure st ts sym n inv s g tr dr).splits[i]? = some a →
        (configure st ts sym n inv s g tr dr).splits[i + 1]? = some b →
        b.buy_target < a.buy_target := by
  intro h
  have h0 : (configure initStrategy ("t") ("B") 2 1 0 (1/2) (1/100) true).splits[0]?
      = some (mkSplit 0 (1/2) 0) := by
    rw [configure_splits]; simp [List.range_succ]
  have h1 : (configure initStrategy ("t") ("B") 2 1 0 (1/2) (1/100) true).splits[0 + 1]?
      = some (mkSplit 0 (1/2) 1) := by
    rw [configure_splits]; simp [List.range_succ]
  have := h initStrategy ("t") ("B") 2 1 0 (1/2) (1/100) true 0
    (mkSplit 0 (1/2) 0) (mkSplit 0 (1/2) 1) (by norm_num) (by norm_num) h0 h1
  norm_num [mkSplit, buyTarget] at this

/-! ## C8: bounded, newest-first activity log -/

/-- `log` keeps the entry list within the 100-entry cap, whatever the prior
length. -/
theorem log_length_le (st : BitSplitStrategy) (ts m : String) :
    (st.log ts m).logs.length ≤ 100 := by
  simp only [BitSplitStrategy.log]
  split_ifs with hc
  · simp
  · simp at hc ⊢
    omega

/-- Below the cap, `log` is exactly "prepend, then keep the first 100". -/
theorem log_logs_eq (st : BitSplitStrategy) (ts m : String) (h : st.logs.length ≤ 100) :
    (st.log ts m).logs = (mkEntry ts m :: st.logs).take 100 := by
  simp only [BitSplitStrategy.log]
  split_ifs with hc
  · rfl
  · simp at hc
    exact (List.take_of_length_le (by simp; omega)).symm

/-- Any sequence of appends keeps the log within the cap. -/
theorem applyLogs_length_le (es : List (String × String)) (st : BitSplitStrategy)
    (h : st.logs.length ≤ 100) : (applyLogs st es).logs.length ≤ 100 := by
  induction es generalizing st with
  | nil => exact h
  | cons e rest ih => exact ih _ (log_length_le st e.1 e.2)

/-- C8: after every sequence of appends the log holds at most 100 entries;
an append is "prepend, keep first 100", so the newest entry is always the
head; at the cap the oldest entry is silently dropped. -/
theorem activity_log_bounded (st : BitSplitStrategy) (es : List (String × String))
    (ts m : String) (h : st.logs.length ≤ 100) :
    (applyLogs st es).logs.length ≤ 100
    ∧ (st.log ts m).logs = (mkEntry ts m :: st.logs).take 100
    ∧ (st.log ts m).logs.head? = some (mkEntry ts m)
    ∧ (st.logs.length = 100 → (st.log ts m).logs = mkEntry ts m :: st.logs.take 99) := by
  refine ⟨applyLogs_length_le es st h, log_logs_eq st ts m h, ?_, ?_⟩
  · rw [log_logs_eq st ts m h]
    rw [show (100:Nat) = 99 + 1 from rfl, List.take_succ_cons]
    rfl
  · intro h100
    rw [log_logs_eq st ts m h]
    rw [show (100:Nat) = 99 + 1 from rfl, List.take_succ_cons]

/-- Witness for C8 starting from the freshly initialised (empty) log. -/
theorem activity_log_bounded_witness :
    initStrategy.logs.length ≤ 100
    ∧ ((applyLogs initStrategy [(("a"), ("b"))]).logs.length ≤ 100
      ∧ (initStrategy.log ("t2") ("x")).logs = (mkEntry ("t2") ("x") :: initStrategy.logs).take 100
      ∧ (initStrategy.log ("t2") ("x")).logs.head? = some (mkEntry ("t2") ("x"))
      ∧ (initStrategy.logs.length = 100 →
          (initStrategy.log ("t2") ("x")).logs = mkEntry ("t2") ("x") :: initStrategy.logs.take 99)) :=
  ⟨by norm_num [initStrategy],
   activity_log_bounded initStrategy [(("a"), ("b"))] ("t2") ("x")
     (by norm_num [initStrategy])⟩

/-! ## C6: configure validation -/

/-- C6 (amended): `configure` performs no validation at all: for every
argument list — slot count below 1 or above 50, gap fraction outside
(0,1), non-positive start price included — it unconditionally installs the
new parameters, rebuilds the slot set (`total_slots.toNat` splits, empty
when the count is below one) and activates the engine.  Bounds are
enforced only by the UI layer (`main.py` widgets), not by the engine. -/
theorem configure_no_validation (st : BitSplitStrategy) (ts sym : String) (n : Int)
    (inv s g tr : ℚ) (dr : Bool) :
    (configure st ts sym n inv s g tr dr).active = true
    ∧ (configure st ts sym n inv s g tr dr).symbol = sym
    ∧ (configure st ts sym n inv s g tr dr).total_slots = n
    ∧ (configure st ts sym n inv s g tr dr).investment_per_slot = inv
    ∧ (configure st ts sym n inv s g tr dr).start_price = s
    ∧ (configure st ts sym n inv s g tr dr).gap_percent = g
    ∧ (configure st ts sym n inv s g tr dr).target_return = tr
    ∧ (configure st ts sym n inv s g tr dr).dry_run = dr
    ∧ (configure st ts sym n inv s g tr dr).splits.length = n.toNat := by
  refine ⟨rfl, rfl, rfl, rfl, rfl, rfl, rfl, rfl, ?_⟩
  rw [configure_splits]
  simp

/-- C6 counterexample: called with slotCount = 0, gapFraction = 2 and
startPrice = −5 (each invalid per the claim), `configure` does not reject
and does not stay in the prior state: it activates the engine and installs
the invalid configuration. -/
theorem configure_no_validation_cex :
    (configure initStrategy ("t") ("B") 0 1000 (-5) 2 (1/100) true).active = true
    ∧ initStrategy.active = false
    ∧ (configure initStrategy ("t") ("B") 0 1000 (-5) 2 (1/100) true).start_price = -5
    ∧ initStrategy.start_price = 0
    ∧ (configure initStrategy ("t") ("B") 0 1000 (-5) 2 (1/100) true).splits = [] :=
  ⟨rfl, rfl, rfl, rfl, rfl⟩

/-! ## C7: missing price aborts the step -/

/-- C7 (amended): when the engine is active and the feed returns no price,
`run_step` returns the explicit no-price result and leaves the entire
state — splits AND logs — untouched, so the engine stays active and the
next scheduled step retries.  Contrary to the claim, the failure is not
appended to the activity log (the counterexample shows the log is
unchanged). -/
theorem run_step_no_price (env : Env) (st : BitSplitStrategy)
    (ha : st.active = true) (hp : env.current_price = none) :
    run_step env st = Except.ok (st, RunResult.noPrice) := by
  simp [run_step, ha, hp]

/-- Witness for C7: the configured one-slot strategy with the feed down. -/
theorem run_step_no_price_witness :
    stW.active = true ∧ envNoPrice.current_price = none
    ∧ run_step envNoPrice stW = Except.ok (stW, RunResult.noPrice) :=
  ⟨rfl, rfl, run_step_no_price envNoPrice stW rfl rfl⟩

/-- C7 counterexample: with the price feed down the step changes nothing at
all — in particular no failure entry is appended to the log, contradicting
the claim's "logs the failure" (the log still holds only the single
configuration entry). -/
theorem run_step_no_price_cex :
    stepState envNoPrice stW = stW
    ∧ stepOutcome envNoPrice stW = some RunResult.noPrice
    ∧ (stepState envNoPrice stW).logs.length = 1 := by
  refine ⟨?_, ?_, ?_⟩ <;> rfl

/-! ## Structural lemmas about one step -/

/-- `execute_buy` changes nothing of the strategy state but the log. -/
theorem execute_buy_shape (env : Env) (st : BitSplitStrategy) (split : Split) (p : ℚ)
    (st2 : BitSplitStrategy) (s2 : Split)
    (h : execute_buy env st split p = Except.ok (st2, s2)) :
    ∃ l, st2 = { st with logs := l } := by
  unfold execute_buy at h
  split at h
  · cases h
  · split at h
    · cases h
      exact ⟨_, rfl⟩
    · split at h
      · cases h
        exact ⟨_, rfl⟩
      · cases h
        exact ⟨_, rfl⟩

/-- `execute_sell` changes nothing of the strategy state but the log. -/
theorem execute_sell_shape (env : Env) (st : BitSplitStrategy) (split : Split) (p : ℚ) :
    ∃ l, (execute_sell env st split p).1 = { st with logs := l } := by
  unfold execute_sell
  split
  · exact ⟨_, rfl⟩
  · split
    · exact ⟨_, rfl⟩
    · exact ⟨_, rfl⟩

/-- One loop iteration changes nothing of the strategy state but the log. -/
theorem step_split_shape (env : Env) (p : ℚ) (st : BitSplitStrategy) (split : Split)
    (st2 : BitSplitStrategy) (s2 : Split)
    (h : step_split env p st split = Except.ok (st2, s2)) :
    ∃ l, st2 = { st with logs := l } := by
  unfold step_split at h
  split at h
  · split at h
    · exact execute_buy_shape env st split p st2 s2 h
    · cases h
      exact ⟨st.logs, rfl⟩
  · split at h
    · simp only [] at h
      split at h
      · split at h
        · injection h with h1
          obtain ⟨l, hl⟩ := execute_sell_shape env st
            { split with profit_rate := (p - split.buy_price) / split.buy_price * 100 } p
          refine ⟨l, ?_⟩
          rw [← hl, h1]
        · cases h
          exact ⟨st.logs, rfl⟩
      · split at h
        · injection h with h1
          obtain ⟨l, hl⟩ := execute_sell_shape env st split p
          refine ⟨l, ?_⟩
          rw [← hl, h1]
        · cases h
          exact ⟨st.logs, rfl⟩
    · cases h
      exact ⟨st.logs, rfl⟩

/-- The traversal of the split list changes nothing of the strategy state
but the log. -/
theorem run_splits_shape (env : Env) (p : ℚ) :
    ∀ (l : List Split) (st st2 : BitSplitStrategy) (l2 : List Split),
      run_splits env p st l = Except.ok (st2, l2) →
      ∃ ls, st2 = { st with logs := ls } := by
  intro l
  induction l with
  | nil =>
      intro st st2 l2 h
      cases h
      exact ⟨st.logs, rfl⟩
  | cons hd rest ih =>
      intro st st2 l2 h
      unfold run_splits at h
      cases hstep : step_split env p st hd with
      | error e => simp only [hstep] at h; cases h
      | ok a =>
          obtain ⟨st1, s1⟩ := a
          simp only [hstep] at h
          cases hrun : run_splits env p st1 rest with
          | error e => simp only [hrun] at h; cases h
          | ok b =>
              obtain ⟨st2x, rest1⟩ := b
              simp only [hrun] at h
              cases h
              obtain ⟨l1, hsh1⟩ := step_split_shape env p st hd st1 s1 hstep
              obtain ⟨ls, hsh2⟩ := ih st1 st2 rest1 hrun
              subst hsh1
              exact ⟨ls, hsh2⟩

/-- The traversal returns one output split per input split. -/
theorem run_splits_length (env : Env) (p : ℚ) :
    ∀ (l : List Split) (st st2 : BitSplitStrategy) (l2 : List Split),
      run_splits env p st l = Except.ok (st2, l2) → l2.length = l.length := by
  intro l
  induction l with
  | nil =>
      intro st st2 l2 h
      cases h
      rfl
  | cons hd rest ih =>
      intro st st2 l2 h
      unfold run_splits at h
      cases hstep : step_split env p st hd with
      | error e => simp only [hstep] at h; cases h
      | ok a =>
          obtain ⟨st1, s1⟩ := a
          simp only [hstep] at h
          cases hrun : run_splits env p st1 rest with
          | error e => simp only [hrun] at h; cases h
          | ok b =>
              obtain ⟨st2x, rest1⟩ := b
              simp only [hrun] at h
              cases h
              simpa using ih st1 st2 rest1 hrun

/-- The i-th output split of the traversal is produced by one loop
iteration on the i-th input split (positional processing, in list order). -/
theorem run_splits_getElem (env : Env) (p : ℚ) :
    ∀ (l : List Split) (st st2 : BitSplitStrategy) (l2 : List Split),
      run_splits env p st l = Except.ok (st2, l2) →
      ∀ (i : Nat) (s : Split), l[i]? = some s →
        ∃ stx st3 s3, step_split env p stx s = Except.ok (st3, s3) ∧ l2[i]? = some s3 := by
  intro l
  induction l with
  | nil =>
      intro st st2 l2 h i s hs
      simp at hs
  | cons hd rest ih =>
      intro st st2 l2 h i s hs
      unfold run_splits at h
      cases hstep : step_split env p st hd with
      | error e => simp only [hstep] at h; cases h
      | ok a =>
          obtain ⟨st1, s1⟩ := a
          simp only [hstep] at h
          cases hrun : run_splits env p st1 rest with
          | error e => simp only [hrun] at h; cases h
          | ok b =>
              obtain ⟨st2x, rest1⟩ := b
              simp only [hrun] at h
              cases h
              cases i with
              | zero =>
                  simp at hs
                  subst hs
                  exact ⟨st, st1, s1, hstep, by simp⟩
              | succ i =>
                  simp at hs
                  obtain ⟨stx, st3, s3, hst, hget⟩ := ih st1 st2 rest1 hrun i s hs
                  exact ⟨stx, st3, s3, hst, by simpa using hget⟩

/-! ## Preservation of the READY/BOUGHT invariant -/

/-- A successful `execute_buy` yields an invariant-respecting split when the
observed price, the per-slot investment and the target return are positive
and the executor only reports positive prices/amounts. -/
theorem execute_buy_slotOK (env : Env) (st : BitSplitStrategy) (split : Split) (p : ℚ)
    (st2 : BitSplitStrategy) (s2 : Split)
    (hp : 0 < p) (hinv : 0 < st.investment_per_slot) (htr : 0 < st.target_return)
    (henv : envOK env) (hok : slotOK split)
    (h : execute_buy env st split p = Except.ok (st2, s2)) : slotOK s2 := by
  unfold execute_buy at h
  rw [if_neg hp.ne'] at h
  by_cases hdry : st.dry_run
  · rw [if_pos hdry] at h
    cases h
    exact Or.inr ⟨rfl, hp, div_pos hinv hp, mul_pos hp (by linarith)⟩
  · rw [if_neg hdry] at h
    cases hbo : env.buy_order split.id with
    | ok res =>
        simp only [hbo] at h
        cases h
        obtain ⟨hpr, ham⟩ := henv split.id res hbo
        have hbp : 0 < res.price.getD p := by
          cases hq : res.price with
          | none => exact hp
          | some q => exact hpr q hq
        have hamt : 0 < res.amount.getD (st.investment_per_slot / p) := by
          cases hq : res.amount with
          | none => exact div_pos hinv hp
          | some q => exact ham q hq
        exact Or.inr ⟨rfl, hbp, hamt, mul_pos hbp (by linarith)⟩
    | fail err =>
        simp only [hbo] at h
        cases h
        exact hok

/-- `execute_sell` yields an invariant-respecting split. -/
theorem execute_sell_slotOK (env : Env) (st : BitSplitStrategy) (split : Split) (p : ℚ)
    (st2 : BitSplitStrategy) (s2 : Split) (hok : slotOK split)
    (h : execute_sell env st split p = (st2, s2)) : slotOK s2 := by
  unfold execute_sell at h
  split at h
  · cases h
    exact Or.inl ⟨rfl, rfl, rfl, rfl⟩
  · split at h
    · cases h
      exact Or.inl ⟨rfl, rfl, rfl, rfl⟩
    · cases h
      exact hok

/-- One loop iteration preserves the READY/BOUGHT invariant. -/
theorem step_split_slotOK (env : Env) (p : ℚ) (st : BitSplitStrategy) (split : Split)
    (st2 : BitSplitStrategy) (s2 : Split)
    (hp : 0 < p) (hinv : 0 < st.investment_per_slot) (htr : 0 < st.target_return)
    (henv : envOK env) (hok : slotOK split)
    (h : step_split env p st split = Except.ok (st2, s2)) : slotOK s2 := by
  unfold step_split at h
  split at h
  · split at h
    · exact execute_buy_slotOK env st split p st2 s2 hp hinv htr henv hok h
    · cases h
      exact hok
  · split at h
    · simp only [] at h
      split at h
      · have hok1 : slotOK
            { split with profit_rate := (p - split.buy_price) / split.buy_price * 100 } := by
          rcases hok with ⟨h1, h2, h3, h4⟩ | ⟨h1, h2, h3, h4⟩
          · exact Or.inl ⟨h1, h2, h3, h4⟩
          · exact Or.inr ⟨h1, h2, h3, h4⟩
        split at h
        · injection h with h1
          exact execute_sell_slotOK env st _ p st2 s2 hok1 h1
        · cases h
          exact hok1
      · split at h
        · injection h with h1
          exact execute_sell_slotOK env st split p st2 s2 hok h1
        · cases h
          exact hok
    · cases h
      exact hok

/-- The full traversal preserves the READY/BOUGHT invariant. -/
theorem run_splits_slotOK (env : Env) (p : ℚ) (hp : 0 < p) (henv : envOK env) :
    ∀ (l : List Split) (st st2 : BitSplitStrategy) (l2 : List Split),
      0 < st.investment_per_slot → 0 < st.target_return →
      run_splits env p st l = Except.ok (st2, l2) →
      (∀ s ∈ l, slotOK s) → ∀ s ∈ l2, slotOK s := by
  intro l
  induction l with
  | nil =>
      intro st st2 l2 _ _ h _ s hs
      cases h
      cases hs
  | cons hd rest ih =>
      intro st st2 l2 hinv htr h hall s hs
      unfold run_splits at h
      cases hstep : step_split env p st hd with
      | error e => simp only [hstep] at h; cases h
      | ok a =>
          obtain ⟨st1, s1⟩ := a
          simp only [hstep] at h
          cases hrun : run_splits env p st1 rest with
          | error e => simp only [hrun] at h; cases h
          | ok b =>
              obtain ⟨st2x, rest1⟩ := b
              simp only [hrun] at h
              cases h
              obtain ⟨l1, hsh⟩ := step_split_shape env p st hd st1 s1 hstep
              rcases List.mem_cons.mp hs with hs1 | hs1
              · subst hs1
                exact step_split_slotOK env p st hd st1 s hp hinv htr henv
                  (hall hd (List.mem_cons_self hd rest)) hstep
              · subst hsh
                exact ih { st with logs := l1 } st2 rest1 hinv htr hrun
                  (fun x hx => hall x (List.mem_cons_of_mem hd hx)) s hs1

/-! ## C2: READY/BOUGHT state invariant -/

/-- C2 (amended): provided the per-slot investment and the target return
are strictly positive, the fetched price (when present) is strictly
positive and a successful live buy only reports positive prices/amounts,
every split satisfies the READY/BOUGHT invariant after `run_step` whenever
all splits satisfied it before, and `configure` establishes it.  The
positivity preconditions are necessary: the counterexample buys with
`investment_per_slot = 0` and leaves a BOUGHT split with quantity 0. -/
theorem slot_state_invariant (env : Env) (st st2 : BitSplitStrategy) (r : RunResult)
    (hp : ∀ q, env.current_price = some q → 0 < q)
    (hinv : 0 < st.investment_per_slot) (htr : 0 < st.target_return)
    (henv : envOK env)
    (hall : ∀ s ∈ st.splits, slotOK s)
    (h : run_step env st = Except.ok (st2, r)) :
    (∀ s ∈ st2.splits, slotOK s)
    ∧ (∀ (st0 : BitSplitStrategy) (ts sym : String) (n : Int) (inv sp g tr : ℚ) (dr : Bool),
        ∀ s ∈ (configure st0 ts sym n inv sp g tr dr).splits, slotOK s) := by
  constructor
  · unfold run_step at h
    split at h
    · cases h
      exact hall
    · cases hpr : env.current_price with
      | none =>
          simp only [hpr] at h
          cases h
          exact hall
      | some q =>
          simp only [hpr] at h
          cases hrun : run_splits env q st st.splits with
          | error e => simp only [hrun] at h; cases h
          | ok b =>
              obtain ⟨st1, splits1⟩ := b
              simp only [hrun] at h
              cases h
              intro s hs
              exact run_splits_slotOK env q (hp q hpr) henv st.splits st st1 splits1
                hinv htr hrun hall s hs
  · intro st0 ts sym n inv sp g tr dr s hs
    rw [configure_splits] at hs
    obtain ⟨i, _, rfl⟩ := List.mem_map.mp hs
    exact Or.inl ⟨rfl, rfl, rfl, rfl⟩

/-- Witness for C2: a dry-run step of the one-slot strategy at price 90;
the slot buys and every split still satisfies the invariant. -/
theorem slot_state_invariant_witness :
    (∀ q, envFail90.current_price = some q → 0 < q)
    ∧ 0 < stW.investment_per_slot
    ∧ 0 < stW.target_return
    ∧ envOK envFail90
    ∧ (∀ s ∈ stW.splits, slotOK s)
    ∧ ((∀ s ∈ (stepState envFail90 stW).splits, slotOK s)
      ∧ (∀ (st0 : BitSplitStrategy) (ts sym : String) (n : Int) (inv sp g tr : ℚ) (dr : Bool),
          ∀ s ∈ (configure st0 ts sym n inv sp g tr dr).splits, slotOK s)) := by
  have hq : ∀ q, envFail90.current_price = some q → 0 < q := by
    intro q hqq
    have h90 : (90:ℚ) = q := by
      simpa [envFail90] using hqq
    rw [← h90]
    norm_num
  have hinv : 0 < stW.investment_per_slot := by
    show (0:ℚ) < 1000
    norm_num
  have htr : 0 < stW.target_return := by
    show (0:ℚ) < 1/20
    norm_num
  have henv : envOK envFail90 := by
    intro i res hbo
    simp [envFail90] at hbo
  have hall : ∀ s ∈ stW.splits, slotOK s := by
    intro s hs
    rw [show stW.splits = [mkSplit 100 (1/10) 0] from rfl] at hs
    obtain rfl := List.mem_singleton.mp hs
    exact Or.inl ⟨rfl, rfl, rfl, rfl⟩
  exact ⟨hq, hinv, htr, henv, hall,
    slot_state_invariant envFail90 stW (stepState envFail90 stW) (RunResult.price 90)
      hq hinv htr henv hall rfl⟩

/-- C2 counterexample: with `investment_per_slot = 0` (a value the engine
accepts unvalidated), a dry-run buy at price 10 leaves split 1 BOUGHT with
`buy_price = 10 > 0` but `quantity = 0`: a partial state that persists
across the step, refuting the claim as stated (no preconditions). -/
theorem slot_state_invariant_cex :
    splitsView stZeroInv = [("READY", 0, 0, 0)]
    ∧ splitsView (stepState envTen stZeroInv) = [("BOUGHT", 10, 0, 21/2)]
    ∧ ¬ slotOK { id := 1, status := "BOUGHT", buy_target := 10, buy_price := 10,
                 quantity := 0, sell_target := 21/2, profit_rate := 0 } := by
  refine ⟨?_, ?_, ?_⟩
  · norm_num [splitsView, splitView, stZeroInv, configure, initStrategy,
      BitSplitStrategy.log, List.range_succ, mkSplit, buyTarget]
  · norm_num [splitsView, splitView, stepState, run_step, run_splits, step_split,
      execute_buy, stZeroInv, envTen, configure, initStrategy, BitSplitStrategy.log,
      List.range_succ, mkSplit, buyTarget]
  · norm_num [slotOK]

/-! ## Preservation of the sell-target relation -/

/-- `execute_sell` either leaves the split untouched (failed live order) or
resets it to READY. -/
theorem execute_sell_fields (env : Env) (st : BitSplitStrategy) (split : Split) (p : ℚ)
    (st2 : BitSplitStrategy) (s2 : Split)
    (h : execute_sell env st split p = (st2, s2)) :
    s2 = split ∨ s2.status = "READY" := by
  unfold execute_sell at h
  split at h
  · cases h
    right
    rfl
  · split at h
    · cases h
      right
      rfl
    · cases h
      left
      rfl

/-- `execute_sell` preserves the sell-target relation. -/
theorem execute_sell_sellTargetOK (env : Env) (st : BitSplitStrategy) (split : Split)
    (p : ℚ) (st2 : BitSplitStrategy) (s2 : Split)
    (hok : sellTargetOK st.target_return split)
    (h : execute_sell env st split p = (st2, s2)) : sellTargetOK st.target_return s2 := by
  unfold execute_sell at h
  split at h
  · cases h
    intro hb
    simp at hb
  · split at h
    · cases h
      intro hb
      simp at hb
    · cases h
      exact hok

/-- One loop iteration preserves the sell-target relation. -/
theorem step_split_sellTargetOK (env : Env) (p : ℚ) (st : BitSplitStrategy) (split : Split)
    (st2 : BitSplitStrategy) (s2 : Split)
    (hok : sellTargetOK st.target_return split)
    (h : step_split env p st split = Except.ok (st2, s2)) :
    sellTargetOK st.target_return s2 := by
  unfold step_split at h
  split at h
  · split at h
    · unfold execute_buy at h
      split at h
      · cases h
      · split at h
        · cases h
          intro _
          rfl
        · cases hbo : env.buy_order split.id with
          | ok res =>
              simp only [hbo] at h
              cases h
              intro _
              rfl
          | fail err =>
              simp only [hbo] at h
              cases h
              exact hok
    · cases h
      exact hok
  · split at h
    · simp only [] at h
      split at h
      · have hok1 : sellTargetOK st.target_return
            { split with profit_rate := (p - split.buy_price) / split.buy_price * 100 } := by
          intro hb
          exact hok hb
        split at h
        · injection h with h1
          exact execute_sell_sellTargetOK env st _ p st2 s2 hok1 h1
        · cases h
          exact hok1
      · split at h
        · injection h with h1
          exact execute_sell_sellTargetOK env st split p st2 s2 hok h1
        · cases h
          exact hok
    · cases h
      exact hok

/-- The full traversal preserves the sell-target relation. -/
theorem run_splits_sellTargetOK (env : Env) (p : ℚ) :
    ∀ (l : List Split) (st st2 : BitSplitStrategy) (l2 : List Split),
      run_splits env p st l = Except.ok (st2, l2) →
      (∀ s ∈ l, sellTargetOK st.target_return s) →
      ∀ s ∈ l2, sellTargetOK st.target_return s := by
  intro l
  induction l with
  | nil =>
      intro st st2 l2 h _ s hs
      cases h
      cases hs
  | cons hd rest ih =>
      intro st st2 l2 h hall s hs
      unfold run_splits at h
      cases hstep : step_split env p st hd with
      | error e => simp only [hstep] at h; cases h
      | ok a =>
          obtain ⟨st1, s1⟩ := a
          simp only [hstep] at h
          cases hrun : run_splits env p st1 rest with
          | error e => simp only [hrun] at h; cases h
          | ok b =>
              obtain ⟨st2x, rest1⟩ := b
              simp only [hrun] at h
              cases h
              obtain ⟨l1, hsh⟩ := step_split_shape env p st hd st1 s1 hstep
              rcases List.mem_cons.mp hs with hs1 | hs1
              · subst hs1
                exact step_split_sellTargetOK env p st hd st1 s
                  (hall hd (List.mem_cons_self hd rest)) hstep
              · subst hsh
                exact ih { st with logs := l1 } st2 rest1 hrun
                  (fun x hx => hall x (List.mem_cons_of_mem hd hx)) s hs1

/-! ## C4: sell target recorded at the moment of buy -/

/-- C4: in every state whose BOUGHT splits satisfy
`sell_target = buy_price * (1 + target_return)`, `run_step` preserves that
relation for every split; `configure` establishes it (vacuously, all
READY); `execute_buy` records exactly that relation at the moment of the
buy, dry-run or live (executor-reported or fallback price); and a step on
a BOUGHT split either keeps status, sellTarget, buyPrice and quantity
unchanged or resets the split to READY by selling — sellTarget never
changes while the position is open. -/
theorem sell_target_invariant (env : Env) (st st2 : BitSplitStrategy) (r : RunResult)
    (hall : ∀ s ∈ st.splits, sellTargetOK st.target_return s)
    (h : run_step env st = Except.ok (st2, r)) :
    (∀ s ∈ st2.splits, sellTargetOK st.target_return s)
    ∧ (∀ (st0 : BitSplitStrategy) (ts sym : String) (n : Int) (inv sp g tr : ℚ) (dr : Bool),
        ∀ s ∈ (configure st0 ts sym n inv sp g tr dr).splits, sellTargetOK tr s)
    ∧ (∀ (stx : BitSplitStrategy) (sp : Split) (p : ℚ) (stb : BitSplitStrategy) (sb : Split),
        sp.status = "READY" →
        execute_buy env stx sp p = Except.ok (stb, sb) → sb.status = "BOUGHT" →
        sb.sell_target = sb.buy_price * (1 + stx.target_return))
    ∧ (∀ (stx : BitSplitStrategy) (sp : Split) (p : ℚ) (st3 : BitSplitStrategy) (s3 : Split),
        sp.status = "BOUGHT" →
        step_split env p stx sp = Except.ok (st3, s3) →
        (s3.status = "BOUGHT" ∧ s3.sell_target = sp.sell_target
          ∧ s3.buy_price = sp.buy_price ∧ s3.quantity = sp.quantity)
        ∨ s3.status = "READY") := by
  refine ⟨?_, ?_, ?_, ?_⟩
  · unfold run_step at h
    split at h
    · cases h
      exact hall
    · cases hpr : env.current_price with
      | none =>
          simp only [hpr] at h
          cases h
          exact hall
      | some q =>
          simp only [hpr] at h
          cases hrun : run_splits env q st st.splits with
          | error e => simp only [hrun] at h; cases h
          | ok b =>
              obtain ⟨st1, splits1⟩ := b
              simp only [hrun] at h
              cases h
              intro s hs
              exact run_splits_sellTargetOK env q st.splits st st1 splits1 hrun hall s hs
  · intro st0 ts sym n inv sp g tr dr s hs
    rw [configure_splits] at hs
    obtain ⟨i, _, rfl⟩ := List.mem_map.mp hs
    intro hb
    simp [mkSplit] at hb
  · intro stx sp p stb sb hready hb hbought
    unfold execute_buy at hb
    split at hb
    · cases hb
    · split at hb
      · cases hb
        rfl
      · cases hbo : env.buy_order sp.id with
        | ok res =>
            simp only [hbo] at hb
            cases hb
            rfl
        | fail err =>
            simp only [hbo] at hb
            cases hb
            exact absurd (hready.symm.trans hbought) (by decide)
  · intro stx sp p st3 s3 hb h3
    unfold step_split at h3
    have hnr : ¬ sp.status = "READY" := by
      rw [hb]
      decide
    rw [if_neg hnr, if_pos hb] at h3
    simp only [] at h3
    by_cases hbp : sp.buy_price > 0
    · rw [if_pos hbp] at h3
      split at h3
      · injection h3 with h31
        rcases execute_sell_fields env stx _ p st3 s3 h31 with h4 | h4
        · left
          rw [h4]
          exact ⟨hb, rfl, rfl, rfl⟩
        · right
          exact h4
      · cases h3
        left
        exact ⟨hb, rfl, rfl, rfl⟩
    · rw [if_neg hbp] at h3
      split at h3
      · injection h3 with h31
        rcases execute_sell_fields env stx sp p st3 s3 h31 with h4 | h4
        · left
          rw [h4]
          exact ⟨hb, rfl, rfl, rfl⟩
        · right
          exact h4
      · cases h3
        left
        exact ⟨hb, rfl, rfl, rfl⟩

/-- Witness for C4: a dry-run step of the one-slot strategy at price 90.
The hypotheses hold (all splits READY, hence vacuously related) and the
invariant holds after the step. -/
theorem sell_target_invariant_witness :
    (∀ s ∈ stW.splits, sellTargetOK stW.target_return s)
    ∧ (∀ s ∈ (stepState envFail90 stW).splits, sellTargetOK stW.target_return s) := by
  have hall : ∀ s ∈ stW.splits, sellTargetOK stW.target_return s := by
    intro s hs
    rw [show stW.splits = [mkSplit 100 (1/10) 0] from rfl] at hs
    obtain rfl := List.mem_singleton.mp hs
    intro hbb
    simp [mkSplit] at hbb
  exact ⟨hall, (sell_target_invariant envFail90 stW (stepState envFail90 stW)
    (RunResult.price 90) hall rfl).1⟩

/-! ## C3: evaluation order and the buy trigger -/

/-- A READY split strictly above its trigger is returned unchanged by the
loop body, whatever log-carrying state is threaded through. -/
theorem step_split_ready_skip (env : Env) (p : ℚ) (stx : BitSplitStrategy) (split : Split)
    (hr : split.status = "READY") (hgt : split.buy_target < p) :
    step_split env p stx split = Except.ok (stx, split) := by
  unfold step_split
  rw [if_pos hr, if_neg (not_le.mpr hgt)]

/-- C3: `configure` assigns ids 1..N in list order, `run_step` processes
the split list positionally in that order (`run_splits_getElem`), a READY
split triggers `execute_buy` exactly when the price is at or below its buy
target, and a READY split strictly above its target is left completely
unchanged by the whole step. -/
theorem ready_trigger (env : Env) (st : BitSplitStrategy) (p : ℚ) (split : Split)
    (hr : split.status = "READY") :
    (p ≤ split.buy_target → step_split env p st split = execute_buy env st split p)
    ∧ (split.buy_target < p → step_split env p st split = Except.ok (st, split))
    ∧ (∀ (st0 : BitSplitStrategy) (ts sym : String) (n : Int) (inv s g tr : ℚ) (dr : Bool)
        (i : Nat) (a : Split),
        (configure st0 ts sym n inv s g tr dr).splits[i]? = some a → a.id = i + 1)
    ∧ (∀ (st2 : BitSplitStrategy) (i : Nat),
        run_step env st = Except.ok (st2, RunResult.price p) →
        st.splits[i]? = some split → split.buy_target < p →
        st2.splits[i]? = some split) := by
  refine ⟨?_, ?_, ?_, ?_⟩
  · intro hle
    unfold step_split
    rw [if_pos hr, if_pos hle]
  · intro hgt
    exact step_split_ready_skip env p st split hr hgt
  · intro st0 ts sym n inv s g tr dr i a ha
    obtain ⟨rfl, _⟩ := configure_splits_getElem st0 ts sym n inv s g tr dr i a ha
    rfl
  · intro st2 i hrs hget hgt
    unfold run_step at hrs
    split at hrs
    · cases hrs
    · cases hpr : env.current_price with
      | none => simp only [hpr] at hrs; cases hrs
      | some q =>
          simp only [hpr] at hrs
          cases hrun : run_splits env q st st.splits with
          | error e => simp only [hrun] at hrs; cases hrs
          | ok b =>
              obtain ⟨st1, splits1⟩ := b
              simp only [hrun] at hrs
              cases hrs
              obtain ⟨stx, st3, s3, hstp, hout⟩ :=
                run_splits_getElem env p st.splits st st1 splits1 hrun i split hget
              rw [step_split_ready_skip env p stx split hr hgt] at hstp
              injection hstp with h5
              injection h5 with h6 h7
              subst h7
              exact hout

/-- Witness for C3: the one-slot strategy with its READY split at target
100 and price 90 — the trigger condition holds and the loop body hands the
split to `execute_buy`. -/
theorem ready_trigger_witness :
    splitW.status = "READY"
    ∧ ((90:ℚ) ≤ splitW.buy_target)
    ∧ step_split envFail90 90 stW splitW = execute_buy envFail90 stW splitW 90
    ∧ (∀ (st0 : BitSplitStrategy) (ts sym : String) (n : Int) (inv s g tr : ℚ) (dr : Bool)
        (i : Nat) (a : Split),
        (configure st0 ts sym n inv s g tr dr).splits[i]? = some a → a.id = i + 1) := by
  have hle : (90:ℚ) ≤ splitW.buy_target := by
    show (90:ℚ) ≤ buyTarget 100 (1/10) 0
    norm_num [buyTarget]
  have h := ready_trigger envFail90 stW 90 splitW rfl
  exact ⟨rfl, hle, h.1 hle, h.2.2.1⟩

/-! ## C5: failed live orders leave the slot untouched -/

/-- The head of the log after an append is the appended entry. -/
theorem log_head (st : BitSplitStrategy) (ts m : String) :
    (st.log ts m).logs.head? = some (mkEntry ts m) := by
  show (if (mkEntry ts m :: st.logs).length > 100
      then (mkEntry ts m :: st.logs).take 100
      else (mkEntry ts m :: st.logs)).head? = some (mkEntry ts m)
  split
  · rw [show (100:Nat) = 99 + 1 from rfl, List.take_succ_cons]
    rfl
  · rfl

/-- A failed live buy only logs. -/
theorem execute_buy_fail (env : Env) (st : BitSplitStrategy) (split : Split) (p : ℚ)
    (err : String) (hp : p ≠ 0) (hdry : st.dry_run = false)
    (hb : env.buy_order split.id = BuyOutcome.fail err) :
    execute_buy env st split p
      = Except.ok (st.log env.ts (buyFailMsg split.id err), split) := by
  simp [execute_buy, hp, hdry, hb]

/-- A failed live sell only logs. -/
theorem execute_sell_fail (env : Env) (st : BitSplitStrategy) (split : Split) (p : ℚ)
    (err : String) (hdry : st.dry_run = false)
    (hs : env.sell_order split.id = SellOutcome.fail err) :
    execute_sell env st split p = (st.log env.ts (sellFailMsg split.id err), split) := by
  simp [execute_sell, hdry, hs]

/-- C5: when the executor rejects a live order, `execute_buy` and
`execute_sell` return the split with status, buyPrice, quantity and
sellTarget exactly as before, and append one failure entry at the head of
the log; within `run_step`'s loop body a BOUGHT split whose sell fails
keeps all four position fields (only the display-only profitRate is
refreshed), so the same trigger re-evaluates next step. -/
theorem order_failure_preserves (env : Env) (st : BitSplitStrategy) (split : Split) (p : ℚ)
    (err1 err2 : String)
    (hdry : st.dry_run = false)
    (hb : env.buy_order split.id = BuyOutcome.fail err1)
    (hs : env.sell_order split.id = SellOutcome.fail err2)
    (hp : p ≠ 0) :
    execute_buy env st split p
      = Except.ok (st.log env.ts (buyFailMsg split.id err1), split)
    ∧ execute_sell env st split p = (st.log env.ts (sellFailMsg split.id err2), split)
    ∧ (st.log env.ts (buyFailMsg split.id err1)).logs.head?
        = some (mkEntry env.ts (buyFailMsg split.id err1))
    ∧ (st.log env.ts (sellFailMsg split.id err2)).logs.head?
        = some (mkEntry env.ts (sellFailMsg split.id err2))
    ∧ (∀ (st3 : BitSplitStrategy) (s3 : Split),
        split.status = "BOUGHT" →
        step_split env p st split = Except.ok (st3, s3) →
        s3.status = "BOUGHT" ∧ s3.buy_price = split.buy_price
          ∧ s3.quantity = split.quantity ∧ s3.sell_target = split.sell_target) := by
  refine ⟨execute_buy_fail env st split p err1 hp hdry hb,
    execute_sell_fail env st split p err2 hdry hs,
    log_head st env.ts (buyFailMsg split.id err1),
    log_head st env.ts (sellFailMsg split.id err2), ?_⟩
  intro st3 s3 hbought h3
  unfold step_split at h3
  have hnr : ¬ split.status = "READY" := by
    rw [hbought]
    decide
  rw [if_neg hnr, if_pos hbought] at h3
  simp only [] at h3
  by_cases hbp : split.buy_price > 0
  · rw [if_pos hbp] at h3
    split at h3
    · rw [execute_sell_fail env st
          { split with profit_rate := (p - split.buy_price) / split.buy_price * 100 }
          p err2 hdry hs] at h3
      cases h3
      exact ⟨hbought, rfl, rfl, rfl⟩
    · cases h3
      exact ⟨hbought, rfl, rfl, rfl⟩
  · rw [if_neg hbp] at h3
    split at h3
    · rw [execute_sell_fail env st split p err2 hdry hs] at h3
      cases h3
      exact ⟨hbought, rfl, rfl, rfl⟩
    · cases h3
      exact ⟨hbought, rfl, rfl, rfl⟩

/-- Witness for C5: live mode with both orders failing at price 90. -/
theorem order_failure_preserves_witness :
    stLive.dry_run = false
    ∧ execute_buy envFail90 stLive splitW 90
        = Except.ok (stLive.log envFail90.ts (buyFailMsg splitW.id ("nope")), splitW)
    ∧ execute_sell envFail90 stLive splitW 90
        = (stLive.log envFail90.ts (sellFailMsg splitW.id ("nope")), splitW) := by
  have h := order_failure_preserves envFail90 stLive splitW 90 ("nope") ("nope")
    rfl rfl rfl (by norm_num)
  exact ⟨rfl, h.1, h.2.1⟩

/-! ## C9: dry-run buy values -/

/-- C9: a dry-run buy at a non-zero price `p` records exactly
`quantity = investment_per_slot / p`, `buy_price = p` and
`sell_target = p * (1 + target_return)`, sets the status to BOUGHT, and
logs the dry-run message. -/
theorem dry_run_buy_values (env : Env) (st : BitSplitStrategy) (split : Split) (p : ℚ)
    (hdry : st.dry_run = true) (hp : p ≠ 0) :
    execute_buy env st split p = Except.ok
      (st.log env.ts (dryBuyMsg split.id p (p * (1 + st.target_return))),
       { split with status := "BOUGHT", buy_price := p,
                    quantity := st.investment_per_slot / p,
                    sell_target := p * (1 + st.target_return) }) := by
  simp [execute_buy, hp, hdry]

/-- Witness for C9 at the spec scenario: price 90, investment 1000, target
return 0.05 — quantity is exactly 1000/90 = 100/9 = 11.111... and the sell
target is 90 × 1.05 = 94.5 = 189/2. -/
theorem dry_run_buy_values_witness :
    stW.dry_run = true ∧ ((90:ℚ) ≠ 0)
    ∧ execute_buy envFail90 stW splitW 90 = Except.ok
        (stW.log envFail90.ts (dryBuyMsg splitW.id 90 (90 * (1 + 1/20))),
         { splitW with status := "BOUGHT", buy_price := 90, quantity := 1000 / 90,
                       sell_target := 90 * (1 + 1/20) })
    ∧ (1000:ℚ) / 90 = 100/9 ∧ (90:ℚ) * (1 + 1/20) = 189/2 := by
  refine ⟨rfl, by norm_num, ?_, by norm_num, by norm_num⟩
  exact dry_run_buy_values envFail90 stW splitW 90 rfl (by norm_num)

/-! ## C10: the division by the fetched price -/

/-- With a non-zero price the loop body cannot raise. -/
theorem step_split_no_error (env : Env) (p : ℚ) (st : BitSplitStrategy) (split : Split)
    (hp : p ≠ 0) : ∃ out, step_split env p st split = Except.ok out := by
  unfold step_split
  split
  · split
    · unfold execute_buy
      rw [if_neg hp]
      split
      · exact ⟨_, rfl⟩
      · cases hbo : env.buy_order split.id with
        | ok res => exact ⟨_, rfl⟩
        | fail err => exact ⟨_, rfl⟩
    · exact ⟨_, rfl⟩
  · split
    · simp only []
      split
      · split
        · exact ⟨_, rfl⟩
        · exact ⟨_, rfl⟩
      · split
        · exact ⟨_, rfl⟩
        · exact ⟨_, rfl⟩
    · exact ⟨_, rfl⟩

/-- With a non-zero price the traversal cannot raise. -/
theorem run_splits_no_error (env : Env) (p : ℚ) (hp : p ≠ 0) :
    ∀ (l : List Split) (st : BitSplitStrategy),
      ∃ out, run_splits env p st l = Except.ok out := by
  intro l
  induction l with
  | nil =>
      intro st
      exact ⟨(st, []), rfl⟩
  | cons hd rest ih =>
      intro st
      obtain ⟨⟨st1, s1⟩, h1⟩ := step_split_no_error env p st hd hp
      obtain ⟨⟨st2, rest1⟩, h2⟩ := ih st1
      refine ⟨(st2, s1 :: rest1), ?_⟩
      unfold run_splits
      simp only [h1, h2]

/-- C10: `run_step` guards only a missing price, not a zero one: when the
feed hands back a strictly positive price no step can raise the division
error, while the concrete zero price 0 ≤ buyTarget does reach the division
in `execute_buy` and raises. -/
theorem run_step_division_safe (env : Env) (st : BitSplitStrategy) (p : ℚ)
    (hpr : env.current_price = some p) (hp : 0 < p) :
    (∃ out, run_step env st = Except.ok out)
    ∧ run_step envZero stW = Except.error () := by
  constructor
  · unfold run_step
    split
    · exact ⟨_, rfl⟩
    · rw [hpr]
      obtain ⟨⟨st1, splits1⟩, hrun⟩ := run_splits_no_error env p hp.ne' st.splits st
      simp only [hrun]
      exact ⟨_, rfl⟩
  · rfl

/-- Witness for C10: price 90 from the feed, one READY slot. -/
theorem run_step_division_safe_witness :
    envFail90.current_price = some 90 ∧ ((0:ℚ) < 90)
    ∧ ((∃ out, run_step envFail90 stW = Except.ok out)
      ∧ run_step envZero stW = Except.error ()) :=
  ⟨rfl, by norm_num, run_step_division_safe envFail90 stW 90 rfl (by norm_num)⟩
